import Mathlib

/-!
Verification of the configuration variable-resolution engine and the chart
template substitution engine of the `mock_go_k8s_helm` repository.

The Go code is shallowly embedded: Go `map[string]string` values become
association lists (`Ctx`) with first-match lookup and overwrite insertion
(Go maps have unique keys, so first match equals the unique match), and the
regex-driven string rewriting of `resolveValue` becomes a fuel-indexed
scanner over `List Char` that mirrors the leftmost, non-greedy semantics of
Go's `regexp.ReplaceAllStringFunc` with the pattern matching a literal
dollar-brace, a shortest run of non-newline characters, and a closing brace.
-/

/-- A Go `map[string]string`, embedded as an association list.
Go maps have unique keys; lookup takes the first (hence only) match. -/
abbrev Ctx : Type := List (String × String)

/-- Lookup in a `Ctx` (Go `val, ok := context[varName]`). -/
def ctxFind : Ctx → String → Option String
  | [], _ => none
  | (k, v) :: rest, name => if k = name then some v else ctxFind rest name

/-- Insertion into a `Ctx` (Go `m[k] = v`): overwrite the binding if the key
is present, append otherwise. -/
def ctxInsert : Ctx → String → String → Ctx
  | [], k, v => [(k, v)]
  | (k', v') :: rest, k, v =>
      if k' = k then (k, v) :: rest else (k', v') :: ctxInsert rest k v

/-- The keys of a `Ctx`. -/
def ctxKeys (m : Ctx) : List String := m.map Prod.fst

/-- The `combinedContext` construction of `resolveConfigMap`: copy
`primary`, then write every binding of `raw` on top (Go's two range loops
over maps, with `raw` written second so it wins on shared keys). -/
def mergeCtx (primary raw : Ctx) : Ctx :=
  raw.foldl (fun acc kv => ctxInsert acc kv.1 kv.2) primary

/-- Scan for the closing brace of a placeholder: Go's non-greedy `.*?`
followed by a literal closing brace.  Returns the characters before the
first closing brace and the remainder after it; fails if a newline or the
end of the string comes first (`.` does not match newline in Go regexp). -/
def findClose : List Char → Option (List Char × List Char)
  | [] => none
  | c :: cs =>
      if c = '}' then some ([], cs)
      else if c = '\n' then none
      else
        match findClose cs with
        | some (inner, rest) => some (c :: inner, rest)
        | none => none

/-- The body of the anonymous function handed to `ReplaceAllStringFunc` in
`resolveValue`: a matched token with captured name `inner` becomes the
context value when the name is bound, and stays the literal token text
otherwise. -/
def tokenResult (context : Ctx) (inner : List Char) : List Char :=
  match ctxFind context (String.mk inner) with
  | some v => v.data
  | none => '$' :: '{' :: (inner ++ ['}'])

/-- One left-to-right substitution pass over the character list, mirroring
`regexp.MustCompile("\\$\x7b(.*?)\x7d").ReplaceAllStringFunc`: at a literal
`$` followed by `{` with a closing brace in reach, the whole token is
replaced via `tokenResult`; scanning resumes after the token.  `fuel`
bounds the recursion; every step consumes at least one input character, so
`fuel = input length` reproduces the total scan. -/
def resolveCharsAux (context : Ctx) : Nat → List Char → List Char
  | _, [] => []
  | 0, cs => cs
  | Nat.succ fuel, c :: cs =>
      if c = '$' then
        match cs with
        | [] => ['$']
        | c2 :: cs' =>
            if c2 = '{' then
              match findClose cs' with
              | some (inner, rest) =>
                  tokenResult context inner ++ resolveCharsAux context fuel rest
              | none => '$' :: '{' :: resolveCharsAux context fuel cs'
            else '$' :: resolveCharsAux context fuel (c2 :: cs')
      else c :: resolveCharsAux context fuel cs

/-- The substitution pass at its natural fuel (the input length): every
scanner step consumes at least one character, so this fuel is enough and
the scan is total, exactly as the Go regex engine's single traversal. -/
def resolveChars (context : Ctx) (cs : List Char) : List Char :=
  resolveCharsAux context cs.length cs

/-- `resolveValue` of the configloader: a single substitution pass over the
raw value. -/
def resolveValue (rawValue : String) (context : Ctx) : String :=
  String.mk (resolveChars context rawValue.data)

/-- `resolveConfigMap` of the configloader: build the combined context by
overlaying `rawConfig` on `primaryContext`, then resolve every raw entry
against it.  The two trailing string arguments mirror the source's
`sectionName` and log-tag parameters, which the function ignores. -/
def resolveConfigMap (rawConfig primaryContext : Ctx)
    (sectionName : String) (logTag : String) : Ctx :=
  rawConfig.map (fun kv => (kv.1, resolveValue kv.2 (mergeCtx primaryContext rawConfig)))

/-- A template written as a sequence of segments: plain literal text, or a
brace-delimited `${name}` token.  This is the decomposition under which the
spec phrases per-token substitution behavior. -/
inductive Seg where
  | lit : String → Seg
  | tok : String → Seg

/-- The literal template text denoted by a segment list. -/
def renderSegs : List Seg → List Char
  | [] => []
  | Seg.lit s :: rest => s.data ++ renderSegs rest
  | Seg.tok n :: rest => '$' :: '{' :: (n.data ++ '}' :: renderSegs rest)

/-- Segment-wise expected substitution, spelled directly from the claim:
a token bound in the context becomes the context value verbatim, an
unbound token stays verbatim including its braces, and literal text passes
through unchanged. -/
def resolveSegs (context : Ctx) : List Seg → List Char
  | [] => []
  | Seg.lit s :: rest => s.data ++ resolveSegs context rest
  | Seg.tok n :: rest =>
      (match ctxFind context n with
       | some v => v.data
       | none => '$' :: '{' :: (n.data ++ ['}'])) ++ resolveSegs context rest

/-- Well-formedness of a segment: literal text carries no dollar sign (so
it can start no token) and a token name carries no closing brace and no
newline (true of every identifier). -/
def segWF : Seg → Bool
  | Seg.lit s => decide ('$' ∉ s.data)
  | Seg.tok n => decide ('}' ∉ n.data) && decide ('\n' ∉ n.data)

/-- `Options` of the configloader. -/
structure Options where
  BasePath : String
  CustomFilePaths : List String
  Environment : String
  EnableDatabaseGrouping : Bool

/-- A value stored in the free-form `Metadata` map (`map[string]interface{}`):
the mock stores strings, booleans and string slices. -/
inductive MetaVal where
  | str : String → MetaVal
  | bool : Bool → MetaVal
  | strList : List String → MetaVal

/-- Insertion into a Go map with arbitrary value type, as for `ctxInsert`. -/
def assocInsert {α : Type} : List (String × α) → String → α → List (String × α)
  | [], k, v => [(k, v)]
  | (k', v') :: rest, k, v =>
      if k' = k then (k, v) :: rest else (k', v') :: assocInsert rest k v

/-- Lookup in a Go map with arbitrary value type, as for `ctxFind`. -/
def assocFind {α : Type} : List (String × α) → String → Option α
  | [], _ => none
  | (k, v) :: rest, name => if k = name then some v else assocFind rest name

/-- `LoadedConfig` of the configloader.  The lower-case raw fields are the
struct's unexported fields. -/
structure LoadedConfig where
  Main : Ctx
  DatabaseConfigs : List (String × Ctx)
  Metadata : List (String × MetaVal)
  rawMainConfig : Ctx
  rawDatabaseConfigs : List (String × Ctx)
  opts : Options

/-- `newLoadedConfig`: every map starts empty. -/
def newLoadedConfig (opts : Options) : LoadedConfig :=
  { Main := [], DatabaseConfigs := [], Metadata := [], rawMainConfig := [],
    rawDatabaseConfigs := [], opts := opts }

/-- `Load` of the configloader mock, statement for statement.  The impure
`time.Now().UTC().Format(time.RFC3339)` call is abstracted as the `now`
argument.  The mock reads no file: the raw maps stay empty, so the final
`resolveConfigMap` assignment leaves `Main` empty and the loop over
`rawDatabaseConfigs` iterates zero times; no statement can produce an
error, so the error result is always `Except.ok`. -/
def Load (opts : Options) (now : String) : Except String LoadedConfig :=
  let lc := newLoadedConfig opts
  let lc := { lc with Main := ctxInsert lc.Main "mock_key_main" "mock_value_main" }
  let lc := { lc with Main := ctxInsert lc.Main "another_key" "another_value" }
  let lc := { lc with Main := ctxInsert lc.Main "var1" "value1" }
  let lc := { lc with Main := ctxInsert lc.Main "var2" "${var1}_value2" }
  let lc :=
    if opts.EnableDatabaseGrouping then
      { lc with DatabaseConfigs := (assocInsert lc.DatabaseConfigs "mockdb"
          [("host", "localhost"), ("port", "5432")]) }
    else lc
  let lc := { lc with Metadata := assocInsert lc.Metadata "source_type" (MetaVal.str "mock_load") }
  let lc := { lc with Metadata := (assocInsert lc.Metadata "parsed_files"
      (MetaVal.strList ["/fake/path/mock.conf"])) }
  let lc := { lc with Metadata := (assocInsert lc.Metadata "database_grouping_enabled"
      (MetaVal.bool opts.EnableDatabaseGrouping)) }
  let lc := { lc with Metadata := assocInsert lc.Metadata "extraction_date" (MetaVal.str now) }
  let lc := { lc with Main := resolveConfigMap lc.rawMainConfig lc.Main "MAIN_RESOLVED_MOCK" "" }
  let lc :=
    if opts.EnableDatabaseGrouping then
      { lc with DatabaseConfigs := (lc.rawDatabaseConfigs.foldl
          (fun dbcs kv => assocInsert dbcs kv.1
            (resolveConfigMap kv.2 lc.Main ("DB_" ++ kv.1.toUpper ++ "_RESOLVED_MOCK") ""))
          lc.DatabaseConfigs) }
    else lc
  Except.ok lc

/-- A JSON document, the codomain of the `encoding/json` marshalling used
by `ToJSON`. -/
inductive Json where
  | str : String → Json
  | bool : Bool → Json
  | arr : List Json → Json
  | obj : List (String × Json) → Json

/-- JSON encoding of a `map[string]string`. -/
def ctxToJson (m : Ctx) : Json :=
  Json.obj (m.map (fun kv => (kv.1, Json.str kv.2)))

/-- JSON encoding of a `map[string]map[string]string`. -/
def dbToJson (m : List (String × Ctx)) : Json :=
  Json.obj (m.map (fun kv => (kv.1, ctxToJson kv.2)))

/-- JSON encoding of a metadata value. -/
def metaValToJson : MetaVal → Json
  | MetaVal.str s => Json.str s
  | MetaVal.bool b => Json.bool b
  | MetaVal.strList l => Json.arr (l.map Json.str)

/-- JSON encoding of the metadata map. -/
def metadataToJson (m : List (String × MetaVal)) : Json :=
  Json.obj (m.map (fun kv => (kv.1, metaValToJson kv.2)))

/-- Go's `encoding/json` serializes a `map[string]interface{}` with its
keys in sorted order; the document for an output map is the object holding
the entries sorted by key. -/
def marshalObj (m : List (String × Json)) : Json :=
  Json.obj (m.insertionSort (fun a b => a.1 ≤ b.1))

/-- `ToJSON`: build the output map (`main`, conditionally
`database_configs`, `metadata`) and marshal it.  The byte formatting of
`MarshalIndent` is abstracted to the JSON document it denotes. -/
def ToJSON (lc : LoadedConfig) : Json :=
  let outputMap : List (String × Json) := []
  let outputMap := assocInsert outputMap "main" (ctxToJson lc.Main)
  let outputMap :=
    if lc.opts.EnableDatabaseGrouping && decide (0 < lc.DatabaseConfigs.length) then
      assocInsert outputMap "database_configs" (dbToJson lc.DatabaseConfigs)
    else outputMap
  let outputMap := assocInsert outputMap "metadata" (metadataToJson lc.Metadata)
  marshalObj outputMap

/-- A value of the `map[string]interface{}` returned by `ToMap`: the
in-memory `Main`, `DatabaseConfigs`, or `Metadata` maps themselves. -/
inductive OutVal where
  | strMap : Ctx → OutVal
  | dbMap : List (String × Ctx) → OutVal
  | metaMap : List (String × MetaVal) → OutVal

/-- `ToMap`: the same output-map construction as `ToJSON`, returned as an
in-memory mapping instead of a serialized document. -/
def ToMap (lc : LoadedConfig) : List (String × OutVal) :=
  let outputMap : List (String × OutVal) := []
  let outputMap := assocInsert outputMap "main" (OutVal.strMap lc.Main)
  let outputMap :=
    if lc.opts.EnableDatabaseGrouping && decide (0 < lc.DatabaseConfigs.length) then
      assocInsert outputMap "database_configs" (OutVal.dbMap lc.DatabaseConfigs)
    else outputMap
  let outputMap := assocInsert outputMap "metadata" (OutVal.metaMap lc.Metadata)
  outputMap

/-- JSON encoding of a `ToMap` value. -/
def outValToJson : OutVal → Json
  | OutVal.strMap m => ctxToJson m
  | OutVal.dbMap m => dbToJson m
  | OutVal.metaMap m => metadataToJson m

/-- The JSON serialization of a `ToMap`-shaped mapping: encode every value
and marshal the object. -/
def marshalOutput (m : List (String × OutVal)) : Json :=
  marshalObj (m.map (fun kv => (kv.1, outValToJson kv.2)))

/-- The top-level keys of a JSON document. -/
def jsonTopKeys : Json → List String
  | Json.obj l => l.map Prod.fst
  | _ => []

/-- The `unassignedVarAction` policy constants declared by the
chartconfigmanager. -/
def UnassignedVarError : String := "error"

/-- Policy constant: replace an unassigned placeholder with the empty
string. -/
def UnassignedVarEmpty : String := "empty"

/-- Policy constant: leave an unassigned placeholder verbatim. -/
def UnassignedVarKeep : String := "keep"

/-- Split a character list on the path separator, modelling the component
decomposition used by Go's `path/filepath` functions (as `strings.Split`
does, leading and trailing separators yield empty components). -/
def splitSlash : List Char → List (List Char)
  | [] => [[]]
  | c :: cs =>
      if c = '/' then [] :: splitSlash cs
      else
        match splitSlash cs with
        | [] => [[c]]
        | h :: t => (c :: h) :: t

/-- One component step of Go `path/filepath.Clean`: empty and dot
components vanish; a dot-dot pops the last real component, accumulates at
the front of a relative path, and vanishes at the root of an absolute
one; any other component is kept.  The stack holds components in reverse
order. -/
def cleanStep (rooted : Bool) (stack : List (List Char)) (comp : List Char) :
    List (List Char) :=
  if comp = [] ∨ comp = ['.'] then stack
  else if comp = ['.', '.'] then
    match stack with
    | [] => if rooted then [] else [['.', '.']]
    | top :: rest => if top = ['.', '.'] then comp :: stack else rest
  else comp :: stack

/-- Go `path/filepath.Clean` for slash-separated paths: the shortest
equivalent path under the usual component rules. -/
def filepathClean (path : String) : String :=
  if path = "" then "."
  else
    let rooted := decide (path.data.head? = some '/')
    let stack := (splitSlash path.data).foldl (cleanStep rooted) []
    let joined := List.intercalate ['/'] stack.reverse
    if rooted then
      (if joined = [] then "/" else String.mk ('/' :: joined))
    else
      (if joined = [] then "." else String.mk joined)

/-- Go `path/filepath.Base`: the last element of the path after trailing
separators are removed; a dot for the empty path and the separator for an
all-slash path. -/
def filepathBase (path : String) : String :=
  if path = "" then "."
  else
    let cs := (path.data.reverse.dropWhile (fun c => c == '/')).reverse
    if cs = [] then "/"
    else String.mk ((cs.reverse.takeWhile (fun c => c != '/')).reverse)

/-- Go `path/filepath.Join` on two elements: join from the first
non-empty element with the separator and clean the result. -/
def filepathJoin (a b : String) : String :=
  if a ≠ "" then filepathClean (a ++ "/" ++ b)
  else if b ≠ "" then filepathClean b
  else ""

/-- `FileSystemProductManager` of the chartconfigmanager mock: the base
products path and the per-test override hook that `InstantiateProduct`
reads.  The logger and the override hooks of the other methods are never
read by `InstantiateProduct` and are omitted. -/
structure FileSystemProductManager where
  baseProductsPath : String
  InstantiateProductFunc :
    Option (String → List (String × MetaVal) → String → String → Except String String)

/-- `NewFileSystemProductManager`: rejects an empty base path and returns
a manager with no override installed. -/
def NewFileSystemProductManager (baseProductsPath : String)
    (logDirectoryPath : String) : Except String FileSystemProductManager :=
  if baseProductsPath = "" then Except.error "baseProductsPath cannot be empty"
  else Except.ok { baseProductsPath := baseProductsPath, InstantiateProductFunc := none }

/-- `InstantiateProduct` of the chartconfigmanager mock, statement for
statement: delegate to the override when one is installed; otherwise
reject an empty `outputPath` and return the joined instantiated path with
a nil error.  The `variables` mapping (Go `map[string]interface{}`,
values modelled by `MetaVal`) and the `unassignedVarAction` policy are
never read, no file is written, and no placeholder is substituted. -/
def InstantiateProduct (m : FileSystemProductManager) (productNameOrPath : String)
    (vars : List (String × MetaVal)) (outputPath : String)
    (unassignedVarAction : String) : Except String String :=
  match m.InstantiateProductFunc with
  | some f => f productNameOrPath vars outputPath unassignedVarAction
  | none =>
      if outputPath = "" then Except.error "outputPath cannot be empty"
      else Except.ok (filepathJoin outputPath (filepathBase productNameOrPath))

example : resolveValue "${A}" [("A", "${B}"), ("B", "${C}"), ("C", "resolved_c")] = "${B}" := by
  decide

example : resolveValue "${SELF}" [("SELF", "${SELF}")] = "${SELF}" := by decide

example : resolveValue "$NAME" [("NAME", "x")] = "$NAME" := by decide

example : resolveValue "http://${SERVER_HOST}:${SERVER_PORT}/api" [] =
    "http://${SERVER_HOST}:${SERVER_PORT}/api" := by decide

example : resolveValue "Project: ${PROJECT}" [("PROJECT", "ConfigLoader")] =
    "Project: ConfigLoader" := by decide

lemma findClose_cons (c : Char) (cs : List Char) :
    findClose (c :: cs) =
      if c = '}' then some ([], cs)
      else if c = '\n' then none
      else match findClose cs with
           | some (inner, rest) => some (c :: inner, rest)
           | none => none := rfl

lemma findClose_append (name rest : List Char) (h1 : '}' ∉ name) (h2 : '\n' ∉ name) :
    findClose (name ++ '}' :: rest) = some (name, rest) := by
  induction name with
  | nil => simp [findClose_cons]
  | cons c cs ih =>
      simp only [List.mem_cons, not_or] at h1 h2
      rw [List.cons_append, findClose_cons, if_neg (fun h => h1.1 h.symm),
        if_neg (fun h => h2.1 h.symm), ih h1.2 h2.2]

lemma findClose_length : ∀ (cs inner rest : List Char),
    findClose cs = some (inner, rest) → inner.length + rest.length + 1 = cs.length := by
  intro cs
  induction cs with
  | nil => intro inner rest h; exact Option.noConfusion h
  | cons c cs ih =>
      intro inner rest h
      rw [findClose_cons] at h
      by_cases hc : c = '}'
      · rw [if_pos hc] at h
        have h' : ([] : List Char) = inner ∧ cs = rest := by
          simpa using h
        obtain ⟨h1, h2⟩ := h'
        subst h1; subst h2
        simp
      · rw [if_neg hc] at h
        by_cases hn : c = '\n'
        · rw [if_pos hn] at h
          exact Option.noConfusion h
        · rw [if_neg hn] at h
          cases hfc : findClose cs with
          | none =>
              rw [hfc] at h
              exact Option.noConfusion h
          | some p =>
              obtain ⟨i, r⟩ := p
              rw [hfc] at h
              have h' : c :: i = inner ∧ r = rest := by
                simpa using h
              obtain ⟨h1, h2⟩ := h'
              subst h1; subst h2
              have := ih i r hfc
              simp only [List.length_cons]
              omega

lemma resolveCharsAux_nil (context : Ctx) (fuel : Nat) :
    resolveCharsAux context fuel [] = [] := by
  cases fuel <;> rfl

lemma resolveCharsAux_cons_ne (context : Ctx) (fuel : Nat) (c : Char) (cs : List Char)
    (hc : c ≠ '$') :
    resolveCharsAux context (fuel + 1) (c :: cs) = c :: resolveCharsAux context fuel cs := by
  have h : resolveCharsAux context (fuel + 1) (c :: cs) =
      if c = '$' then
        match cs with
        | [] => ['$']
        | c2 :: cs' =>
            if c2 = '{' then
              match findClose cs' with
              | some (inner, rest) =>
                  tokenResult context inner ++ resolveCharsAux context fuel rest
              | none => '$' :: '{' :: resolveCharsAux context fuel cs'
            else '$' :: resolveCharsAux context fuel (c2 :: cs')
      else c :: resolveCharsAux context fuel cs := rfl
  rw [h, if_neg hc]

lemma resolveCharsAux_dollar_one (context : Ctx) (fuel : Nat) :
    resolveCharsAux context (fuel + 1) ['$'] = ['$'] := rfl

lemma resolveCharsAux_dollar_ne (context : Ctx) (fuel : Nat) (c2 : Char) (cs' : List Char)
    (h2 : c2 ≠ '{') :
    resolveCharsAux context (fuel + 1) ('$' :: c2 :: cs') =
      '$' :: resolveCharsAux context fuel (c2 :: cs') := by
  have h : resolveCharsAux context (fuel + 1) ('$' :: c2 :: cs') =
      if c2 = '{' then
        match findClose cs' with
        | some (inner, rest) =>
            tokenResult context inner ++ resolveCharsAux context fuel rest
        | none => '$' :: '{' :: resolveCharsAux context fuel cs'
      else '$' :: resolveCharsAux context fuel (c2 :: cs') := rfl
  rw [h, if_neg h2]

lemma resolveCharsAux_open_some (context : Ctx) (fuel : Nat) (cs' inner rest : List Char)
    (hfc : findClose cs' = some (inner, rest)) :
    resolveCharsAux context (fuel + 1) ('$' :: '{' :: cs') =
      tokenResult context inner ++ resolveCharsAux context fuel rest := by
  have h : resolveCharsAux context (fuel + 1) ('$' :: '{' :: cs') =
      match findClose cs' with
      | some (inner, rest) =>
          tokenResult context inner ++ resolveCharsAux context fuel rest
      | none => '$' :: '{' :: resolveCharsAux context fuel cs' := rfl
  rw [h, hfc]

lemma resolveCharsAux_open_none (context : Ctx) (fuel : Nat) (cs' : List Char)
    (hfc : findClose cs' = none) :
    resolveCharsAux context (fuel + 1) ('$' :: '{' :: cs') =
      '$' :: '{' :: resolveCharsAux context fuel cs' := by
  have h : resolveCharsAux context (fuel + 1) ('$' :: '{' :: cs') =
      match findClose cs' with
      | some (inner, rest) =>
          tokenResult context inner ++ resolveCharsAux context fuel rest
      | none => '$' :: '{' :: resolveCharsAux context fuel cs' := rfl
  rw [h, hfc]

lemma resolveCharsAux_succ (context : Ctx) :
    ∀ (fuel : Nat) (cs : List Char), cs.length ≤ fuel →
      resolveCharsAux context (fuel + 1) cs = resolveCharsAux context fuel cs := by
  intro fuel
  induction fuel with
  | zero =>
      intro cs h
      have hnil : cs = [] := List.eq_nil_of_length_eq_zero (Nat.le_zero.mp h)
      subst hnil
      rw [resolveCharsAux_nil, resolveCharsAux_nil]
  | succ n ih =>
      intro cs h
      cases cs with
      | nil => rw [resolveCharsAux_nil, resolveCharsAux_nil]
      | cons c cs₁ =>
          simp only [List.length_cons] at h
          by_cases hc : c = '$'
          · subst hc
            cases cs₁ with
            | nil => rw [resolveCharsAux_dollar_one, resolveCharsAux_dollar_one]
            | cons c2 cs₂ =>
                simp only [List.length_cons] at h
                by_cases h2 : c2 = '{'
                · subst h2
                  cases hfc : findClose cs₂ with
                  | some p =>
                      obtain ⟨i, r⟩ := p
                      have hlen := findClose_length cs₂ i r hfc
                      rw [resolveCharsAux_open_some context (n + 1) cs₂ i r hfc,
                        resolveCharsAux_open_some context n cs₂ i r hfc,
                        ih r (by omega)]
                  | none =>
                      rw [resolveCharsAux_open_none context (n + 1) cs₂ hfc,
                        resolveCharsAux_open_none context n cs₂ hfc,
                        ih cs₂ (by omega)]
                · rw [resolveCharsAux_dollar_ne context (n + 1) c2 cs₂ h2,
                    resolveCharsAux_dollar_ne context n c2 cs₂ h2,
                    ih (c2 :: cs₂) (by simp only [List.length_cons]; omega)]
          · rw [resolveCharsAux_cons_ne context (n + 1) c cs₁ hc,
              resolveCharsAux_cons_ne context n c cs₁ hc,
              ih cs₁ (by omega)]

lemma resolveCharsAux_of_le (context : Ctx) (fuel : Nat) (cs : List Char)
    (h : cs.length ≤ fuel) :
    resolveCharsAux context fuel cs = resolveChars context cs := by
  induction fuel with
  | zero =>
      cases cs with
      | nil => rfl
      | cons c cs => simp at h
  | succ n ih =>
      by_cases hl : cs.length ≤ n
      · rw [resolveCharsAux_succ context n cs hl, ih hl]
      · have hlen : cs.length = n + 1 := by omega
        rw [resolveChars, hlen]

lemma resolveChars_cons_ne (context : Ctx) (c : Char) (cs : List Char) (hc : c ≠ '$') :
    resolveChars context (c :: cs) = c :: resolveChars context cs := by
  show resolveCharsAux context (cs.length + 1) (c :: cs) = _
  rw [resolveCharsAux_cons_ne context cs.length c cs hc]
  rfl

lemma resolveChars_lit (context : Ctx) (l cs : List Char) (h : '$' ∉ l) :
    resolveChars context (l ++ cs) = l ++ resolveChars context cs := by
  induction l with
  | nil => simp
  | cons c l ih =>
      simp only [List.mem_cons, not_or] at h
      rw [List.cons_append, resolveChars_cons_ne context c (l ++ cs) (fun hc => h.1 hc.symm),
        ih h.2, List.cons_append]

lemma resolveChars_token (context : Ctx) (name cs : List Char)
    (h1 : '}' ∉ name) (h2 : '\n' ∉ name) :
    resolveChars context ('$' :: '{' :: (name ++ '}' :: cs)) =
      tokenResult context name ++ resolveChars context cs := by
  show resolveCharsAux context ((name ++ '}' :: cs).length + 1 + 1) _ = _
  rw [resolveCharsAux_open_some context ((name ++ '}' :: cs).length + 1) (name ++ '}' :: cs)
      name cs (findClose_append name cs h1 h2),
    resolveCharsAux_of_le context _ cs (by simp [List.length_append]; omega)]

lemma resolveCharsAux_no_brace (context : Ctx) :
    ∀ (fuel : Nat) (cs : List Char), '{' ∉ cs → resolveCharsAux context fuel cs = cs := by
  intro fuel
  induction fuel with
  | zero =>
      intro cs h
      cases cs with
      | nil => rfl
      | cons c cs => rfl
  | succ n ih =>
      intro cs h
      cases cs with
      | nil => rfl
      | cons c cs =>
          simp only [List.mem_cons, not_or] at h
          by_cases hc : c = '$'
          · subst hc
            cases cs with
            | nil => exact resolveCharsAux_dollar_one context n
            | cons c2 cs' =>
                simp only [List.mem_cons, not_or] at h
                rw [resolveCharsAux_dollar_ne context n c2 cs' (fun h2 => h.2.1 h2.symm),
                  ih (c2 :: cs') (by simp only [List.mem_cons, not_or]; exact h.2)]
          · rw [resolveCharsAux_cons_ne context n c cs hc, ih cs h.2]

lemma resolveChars_no_brace (context : Ctx) (cs : List Char) (h : '{' ∉ cs) :
    resolveChars context cs = cs :=
  resolveCharsAux_no_brace context cs.length cs h

/-- C1: `resolveValue` performs exactly one substitution pass.  With the
context mapping `A` to the literal text of a `B` reference, `B` to a `C`
reference, and `C` to `resolved_c`, a single pass on a `${A}` template
yields the `${B}` text (the replacement is not re-scanned), a second
application yields `${C}`, and only a third yields `resolved_c`, so
`resolveValue` is not idempotent on this input. -/
theorem resolveValue_single_pass_chain :
    resolveValue "${A}" [("A", "${B}"), ("B", "${C}"), ("C", "resolved_c")] = "${B}" ∧
    resolveValue (resolveValue "${A}" [("A", "${B}"), ("B", "${C}"), ("C", "resolved_c")])
      [("A", "${B}"), ("B", "${C}"), ("C", "resolved_c")] = "${C}" ∧
    resolveValue (resolveValue (resolveValue "${A}"
        [("A", "${B}"), ("B", "${C}"), ("C", "resolved_c")])
        [("A", "${B}"), ("B", "${C}"), ("C", "resolved_c")])
      [("A", "${B}"), ("B", "${C}"), ("C", "resolved_c")] = "resolved_c" ∧
    resolveValue (resolveValue "${A}" [("A", "${B}"), ("B", "${C}"), ("C", "resolved_c")])
        [("A", "${B}"), ("B", "${C}"), ("C", "resolved_c")] ≠
      resolveValue "${A}" [("A", "${B}"), ("B", "${C}"), ("C", "resolved_c")] := by
  decide

/-- C2: a self-referential binding does not loop: the single substitution
pass maps the `${SELF}` template to the bound value, which is again the
literal `${SELF}` text, and the function terminates (it is total by
construction). -/
theorem resolveValue_self_reference :
    resolveValue "${SELF}" [("SELF", "${SELF}")] = "${SELF}" := by
  decide

/-- C3: an unbraced `$NAME` is never substituted, even when `NAME` is bound
in the context: for every context and every bound name containing no open
brace (every identifier), `resolveValue` returns the dollar-led template
unchanged. -/
theorem resolveValue_unbraced_untouched (context : Ctx) (name : String)
    (hmem : (ctxFind context name).isSome = true)
    (hb : '{' ∉ name.data) :
    resolveValue ("$" ++ name) context = "$" ++ name := by
  apply String.ext
  show (resolveChars context ("$" ++ name).data) = _
  rw [String.data_append]
  rw [resolveChars_no_brace]
  simp only [List.mem_append, not_or]
  exact ⟨by decide, hb⟩

/-- Closed instance of `resolveValue_unbraced_untouched` at the spec's
example: `resolveValue("$NAME", {NAME: "x"}) == "$NAME"`. -/

theorem resolveValue_unbraced_untouched_witness :
    (ctxFind [("NAME", "x")] "NAME").isSome = true ∧
    resolveValue ("$" ++ "NAME") [("NAME", "x")] = "$" ++ "NAME" :=
  ⟨by decide, resolveValue_unbraced_untouched [("NAME", "x")] "NAME" (by decide) (by decide)⟩

lemma tokenResult_eq (context : Ctx) (n : String) :
    tokenResult context n.data =
      (match ctxFind context n with
       | some v => v.data
       | none => '$' :: '{' :: (n.data ++ ['}'])) := rfl

lemma resolveChars_renderSegs (context : Ctx) :
    ∀ (segs : List Seg), segs.all segWF = true →
      resolveChars context (renderSegs segs) = resolveSegs context segs := by
  intro segs
  induction segs with
  | nil => intro h; rfl
  | cons seg rest ih =>
      intro h
      simp only [List.all_cons, Bool.and_eq_true] at h
      cases seg with
      | lit s =>
          have hd : '$' ∉ s.data := of_decide_eq_true h.1
          show resolveChars context (s.data ++ renderSegs rest) = _
          rw [resolveChars_lit context s.data (renderSegs rest) hd, ih h.2]
          rfl
      | tok n =>
          simp only [segWF, Bool.and_eq_true] at h
          have h1 : '}' ∉ n.data := of_decide_eq_true h.1.1
          have h2 : '\n' ∉ n.data := of_decide_eq_true h.1.2
          show resolveChars context ('$' :: '{' :: (n.data ++ '}' :: renderSegs rest)) = _
          rw [resolveChars_token context n.data (renderSegs rest) h1 h2, ih h.2,
            tokenResult_eq]
          rfl

/-- C4: per-token substitution.  For every context and every template
decomposed into literal text (without dollar signs) and `${name}` tokens
(names without closing brace or newline, which covers every identifier),
`resolveValue` replaces exactly the tokens whose name is a key of the
context by the context value verbatim, and leaves every other token
verbatim in the output, braces included. -/
theorem resolveValue_per_token (context : Ctx) (segs : List Seg)
    (hwf : segs.all segWF = true) :
    resolveValue (String.mk (renderSegs segs)) context =
      String.mk (resolveSegs context segs) := by
  apply String.ext
  show resolveChars context (renderSegs segs) = _
  rw [resolveChars_renderSegs context segs hwf]

/-- Closed instance of `resolveValue_per_token`: the template
`a-${X}-${Y}` under the context binding only `X` resolves to `a-1-${Y}`:
the bound token is replaced, the unbound token and the literals survive
verbatim. -/
theorem resolveValue_per_token_witness :
    ([Seg.lit "a-", Seg.tok "X", Seg.lit "-", Seg.tok "Y"].all segWF = true) ∧
    resolveValue
        (String.mk (renderSegs [Seg.lit "a-", Seg.tok "X", Seg.lit "-", Seg.tok "Y"]))
        [("X", "1")] =
      String.mk (resolveSegs [("X", "1")] [Seg.lit "a-", Seg.tok "X", Seg.lit "-", Seg.tok "Y"]) ∧
    String.mk (renderSegs [Seg.lit "a-", Seg.tok "X", Seg.lit "-", Seg.tok "Y"]) =
      "a-${X}-${Y}" ∧
    String.mk (resolveSegs [("X", "1")] [Seg.lit "a-", Seg.tok "X", Seg.lit "-", Seg.tok "Y"]) =
      "a-1-${Y}" :=
  ⟨by decide,
   resolveValue_per_token [("X", "1")] [Seg.lit "a-", Seg.tok "X", Seg.lit "-", Seg.tok "Y"]
     (by decide),
   by decide, by decide⟩

lemma ctxFind_insert (m : Ctx) (k v q : String) :
    ctxFind (ctxInsert m k v) q = if k = q then some v else ctxFind m q := by
  induction m with
  | nil =>
      show ctxFind [(k, v)] q = _
      by_cases hq : k = q <;> simp [ctxFind, hq]
  | cons kv rest ih =>
      obtain ⟨k', v'⟩ := kv
      show ctxFind (if k' = k then (k, v) :: rest else (k', v') :: ctxInsert rest k v) q = _
      by_cases hk : k' = k
      · subst hk
        rw [if_pos rfl]
        by_cases hq : k' = q <;> simp [ctxFind, hq]
      · rw [if_neg hk]
        by_cases hq : k' = q
        · subst hq
          have hkq : ¬ k = k' := fun h => hk h.symm
          simp [ctxFind, hkq]
        · simp [ctxFind, hq, ih]

lemma ctxFind_none_of_not_mem (m : Ctx) (q : String) (h : q ∉ ctxKeys m) :
    ctxFind m q = none := by
  induction m with
  | nil => rfl
  | cons kv rest ih =>
      obtain ⟨k, v⟩ := kv
      simp only [ctxKeys, List.map_cons, List.mem_cons, not_or] at h
      have hk : ¬ k = q := fun he => h.1 he.symm
      simp only [ctxFind, if_neg hk]
      exact ih (by simpa [ctxKeys] using h.2)

lemma mergeCtx_find (raw : Ctx) :
    ∀ (p : Ctx), (ctxKeys raw).Nodup → ∀ q : String,
      ctxFind (mergeCtx p raw) q =
        match ctxFind raw q with
        | some v => some v
        | none => ctxFind p q := by
  induction raw with
  | nil => intro p hnd q; rfl
  | cons kv raw ih =>
      intro p hnd q
      obtain ⟨k, v⟩ := kv
      have hstep : mergeCtx p ((k, v) :: raw) = mergeCtx (ctxInsert p k v) raw := rfl
      simp only [ctxKeys, List.map_cons, List.nodup_cons] at hnd
      rw [hstep, ih (ctxInsert p k v) hnd.2 q]
      by_cases hq : k = q
      · subst hq
        rw [ctxFind_none_of_not_mem raw k hnd.1]
        simp [ctxFind, ctxFind_insert]
      · simp only [ctxFind, if_neg hq]
        cases ctxFind raw q with
        | some w => rfl
        | none => simp [ctxFind_insert, hq]

lemma ctxFind_resolved (raw combined : Ctx) (q : String) :
    ctxFind (raw.map (fun kv => (kv.1, resolveValue kv.2 combined))) q =
      (ctxFind raw q).map (fun v => resolveValue v combined) := by
  induction raw with
  | nil => rfl
  | cons kv rest ih =>
      obtain ⟨k, v⟩ := kv
      by_cases hq : k = q <;> simp [ctxFind, hq, ih]

/-- C5: `resolveConfigMap` returns a mapping with exactly the keys of
`rawConfig`; every value is `resolveValue` of the raw value against the
combined context; and the combined context resolves a key through
`rawConfig` preferentially, falling back to `primaryContext` only for keys
absent from `rawConfig`.  The embedding is purely functional, so neither
input mapping is mutated by the call.  The key-uniqueness hypothesis is the
Go map invariant on `rawConfig`. -/
theorem resolveConfigMap_spec (rawConfig primaryContext : Ctx)
    (sectionName logTag : String) (hnd : (ctxKeys rawConfig).Nodup) :
    ctxKeys (resolveConfigMap rawConfig primaryContext sectionName logTag) =
      ctxKeys rawConfig ∧
    (∀ k v, ctxFind rawConfig k = some v →
      ctxFind (resolveConfigMap rawConfig primaryContext sectionName logTag) k =
        some (resolveValue v (mergeCtx primaryContext rawConfig))) ∧
    (∀ k : String, ctxFind (mergeCtx primaryContext rawConfig) k =
      match ctxFind rawConfig k with
      | some v => some v
      | none => ctxFind primaryContext k) := by
  refine ⟨?_, ?_, ?_⟩
  · simp [resolveConfigMap, ctxKeys, List.map_map, Function.comp]
  · intro k v hkv
    show ctxFind (rawConfig.map (fun kv =>
        (kv.1, resolveValue kv.2 (mergeCtx primaryContext rawConfig)))) k = _
    rw [ctxFind_resolved, hkv]
    rfl
  · exact mergeCtx_find rawConfig primaryContext hnd

/-- Closed instance of `resolveConfigMap_spec`: with
`rawConfig = {a: "${b}", b: "RAW"}` and `primaryContext = {b: "PRIMARY",
c: "C"}`, the raw binding of `b` wins in the combined context, so `a`
resolves to `RAW`, and `c` falls back to the primary context. -/
theorem resolveConfigMap_spec_witness :
    ((ctxKeys [("a", "${b}"), ("b", "RAW")]).Nodup) ∧
    (ctxKeys (resolveConfigMap [("a", "${b}"), ("b", "RAW")] [("b", "PRIMARY"), ("c", "C")]
        "S" "") = ctxKeys [("a", "${b}"), ("b", "RAW")] ∧
    (∀ k v, ctxFind [("a", "${b}"), ("b", "RAW")] k = some v →
      ctxFind (resolveConfigMap [("a", "${b}"), ("b", "RAW")] [("b", "PRIMARY"), ("c", "C")]
          "S" "") k =
        some (resolveValue v (mergeCtx [("b", "PRIMARY"), ("c", "C")]
          [("a", "${b}"), ("b", "RAW")]))) ∧
    (∀ k : String, ctxFind (mergeCtx [("b", "PRIMARY"), ("c", "C")]
        [("a", "${b}"), ("b", "RAW")]) k =
      match ctxFind [("a", "${b}"), ("b", "RAW")] k with
      | some v => some v
      | none => ctxFind [("b", "PRIMARY"), ("c", "C")] k)) ∧
    ctxFind (resolveConfigMap [("a", "${b}"), ("b", "RAW")] [("b", "PRIMARY"), ("c", "C")]
      "S" "") "a" = some "RAW" :=
  ⟨by decide,
   resolveConfigMap_spec [("a", "${b}"), ("b", "RAW")] [("b", "PRIMARY"), ("c", "C")]
     "S" "" (by decide),
   by decide⟩

/-- C6: `Load` never fails.  The mock performs no file read, and no other
statement of its body can produce an error, so for every options value
(and every clock reading) it returns a loaded configuration and a nil
error; in particular unresolved placeholders never cause a failure. -/
theorem load_never_fails (opts : Options) (now : String) :
    ∃ lc : LoadedConfig, Load opts now = Except.ok lc :=
  ⟨_, rfl⟩

lemma toJSON_eq (lc : LoadedConfig) :
    ToJSON lc = marshalObj
      (if lc.opts.EnableDatabaseGrouping && decide (0 < lc.DatabaseConfigs.length) then
        [("main", ctxToJson lc.Main), ("database_configs", dbToJson lc.DatabaseConfigs),
         ("metadata", metadataToJson lc.Metadata)]
      else [("main", ctxToJson lc.Main), ("metadata", metadataToJson lc.Metadata)]) := by
  simp only [ToJSON]
  by_cases hb : (lc.opts.EnableDatabaseGrouping && decide (0 < lc.DatabaseConfigs.length)) = true
  · simp only [if_pos hb]
    rfl
  · simp only [if_neg hb]
    rfl

lemma toMap_eq (lc : LoadedConfig) :
    ToMap lc =
      (if lc.opts.EnableDatabaseGrouping && decide (0 < lc.DatabaseConfigs.length) then
        [("main", OutVal.strMap lc.Main), ("database_configs", OutVal.dbMap lc.DatabaseConfigs),
         ("metadata", OutVal.metaMap lc.Metadata)]
      else [("main", OutVal.strMap lc.Main), ("metadata", OutVal.metaMap lc.Metadata)]) := by
  simp only [ToMap]
  by_cases hb : (lc.opts.EnableDatabaseGrouping && decide (0 < lc.DatabaseConfigs.length)) = true
  · simp only [if_pos hb]
    rfl
  · simp only [if_neg hb]
    rfl

lemma mem_marshalObj_keys (m : List (String × Json)) (k : String) :
    k ∈ jsonTopKeys (marshalObj m) ↔ k ∈ m.map Prod.fst := by
  show k ∈ (m.insertionSort (fun a b => a.1 ≤ b.1)).map Prod.fst ↔ _
  exact ((List.perm_insertionSort _ m).map Prod.fst).mem_iff

lemma grouping_cond_iff (lc : LoadedConfig) :
    (lc.opts.EnableDatabaseGrouping && decide (0 < lc.DatabaseConfigs.length)) = true ↔
      (lc.opts.EnableDatabaseGrouping = true ∧ lc.DatabaseConfigs ≠ []) := by
  rw [Bool.and_eq_true, decide_eq_true_eq, List.length_pos]

/-- C8: the document produced by `ToJSON` has top-level keys exactly
`main` and `metadata`, plus `database_configs` present precisely when
database grouping was enabled in the load options and the
`DatabaseConfigs` mapping is non-empty.  The value shapes (string map
under `main`, map of string maps under `database_configs`, free-form
object under `metadata`) are fixed by the encoders in the construction of
`ToJSON` itself. -/
theorem toJSON_top_level_keys (lc : LoadedConfig) :
    "main" ∈ jsonTopKeys (ToJSON lc) ∧
    "metadata" ∈ jsonTopKeys (ToJSON lc) ∧
    ("database_configs" ∈ jsonTopKeys (ToJSON lc) ↔
      (lc.opts.EnableDatabaseGrouping = true ∧ lc.DatabaseConfigs ≠ [])) ∧
    (∀ k ∈ jsonTopKeys (ToJSON lc),
      k = "main" ∨ k = "database_configs" ∨ k = "metadata") := by
  rw [toJSON_eq]
  by_cases hb : (lc.opts.EnableDatabaseGrouping && decide (0 < lc.DatabaseConfigs.length)) = true
  · simp only [if_pos hb]
    refine ⟨?_, ?_, ?_, ?_⟩
    · rw [mem_marshalObj_keys]; simp
    · rw [mem_marshalObj_keys]; simp
    · rw [mem_marshalObj_keys]
      constructor
      · intro _; exact (grouping_cond_iff lc).mp hb
      · intro _; simp
    · intro k hk
      rw [mem_marshalObj_keys] at hk
      simpa using hk
  · simp only [if_neg hb]
    refine ⟨?_, ?_, ?_, ?_⟩
    · rw [mem_marshalObj_keys]; simp
    · rw [mem_marshalObj_keys]; simp
    · rw [mem_marshalObj_keys]
      constructor
      · intro hk; simpa using hk
      · intro hcond; exact absurd ((grouping_cond_iff lc).mpr hcond) hb
    · intro k hk
      rw [mem_marshalObj_keys] at hk
      simp only [List.map_cons, List.map_nil, List.mem_cons, List.not_mem_nil, or_false] at hk
      rcases hk with h | h
      · exact Or.inl h
      · exact Or.inr (Or.inr h)

/-- C10: `ToJSON` is the JSON serialization of `ToMap`: for every loaded
configuration, the document produced by `ToJSON` equals the entry-wise
JSON encoding of the mapping returned by `ToMap` (same top-level keys,
field-for-field equal contents), so parsing the serialized document
recovers exactly the `ToMap` mapping. -/
theorem toJSON_serializes_toMap (lc : LoadedConfig) :
    ToJSON lc = marshalOutput (ToMap lc) := by
  rw [toJSON_eq, toMap_eq]
  by_cases hb : (lc.opts.EnableDatabaseGrouping && decide (0 < lc.DatabaseConfigs.length)) = true
  · simp only [if_pos hb]
    rfl
  · simp only [if_neg hb]
    rfl

/-- C7 evaluation: `Load` ignores the source files named in its options.
Even when the option set names `database_mysql.conf` and
`database_postgres.conf` files and enables grouping, the returned
configuration carries the single hardcoded `mockdb` database entry — no
`mysql` or `postgres` key — and its `Main` mapping is empty (the final
`resolveConfigMap` over the empty raw map discards the earlier mock
entries); with grouping disabled nothing is flattened into `Main`, which
is empty as well.  This contradicts the database-grouping round trip the
repository's own `TestLoad_DatabaseGrouping` test asserts. -/
theorem load_database_grouping_failing_input :
    (Load (Options.mk "/base"
        ["/base/conf/database_mysql.conf", "/base/conf/database_postgres.conf"] "" true)
        "2026-10-11T00:00:00Z").map
      (fun lc => (lc.Main, lc.DatabaseConfigs.map Prod.fst)) =
      Except.ok ([], ["mockdb"]) ∧
    (Load (Options.mk "/base"
        ["/base/conf/database_mysql.conf", "/base/conf/database_postgres.conf"] "" false)
        "2026-10-11T00:00:00Z").map
      (fun lc => (lc.Main, lc.DatabaseConfigs.map Prod.fst)) =
      Except.ok ([], []) :=
  ⟨rfl, rfl⟩

example : filepathBase "a/b/c.txt" = "c.txt" := by decide

example : filepathBase "myproduct" = "myproduct" := by decide

example : filepathClean "/a//b/../c/" = "/a/c" := by decide

example : filepathJoin "/tmp/out" "prod" = "/tmp/out/prod" := by decide

/-- C9: evaluation of `InstantiateProduct` at the failing setup.  The
claim requires the unassigned-variable policy to govern every unassigned
placeholder (verbatim under `keep`, erased under `empty`, an aborting
error naming every unassigned identifier under `error`); the code
instead ignores `variables` and the policy entirely: for every variables
mapping and every policy string — the declared `error`, `empty` and
`keep` constants included — the default manager returns the joined
output path with a nil error, substituting nothing and naming no
identifier. -/
theorem instantiateProduct_ignores_policy :
    (∀ (vars : List (String × MetaVal)) (policy : String),
      InstantiateProduct (FileSystemProductManager.mk "/products" none) "myproduct"
          vars "/tmp/out" policy = Except.ok "/tmp/out/myproduct") ∧
    InstantiateProduct (FileSystemProductManager.mk "/products" none) "myproduct"
        [("assigned", MetaVal.str "3")] "/tmp/out" UnassignedVarError =
      Except.ok "/tmp/out/myproduct" ∧
    InstantiateProduct (FileSystemProductManager.mk "/products" none) "myproduct"
        [] "/tmp/out" UnassignedVarEmpty = Except.ok "/tmp/out/myproduct" ∧
    InstantiateProduct (FileSystemProductManager.mk "/products" none) "myproduct"
        [] "/tmp/out" UnassignedVarKeep = Except.ok "/tmp/out/myproduct" :=
  ⟨fun vars policy => rfl, rfl, rfl, rfl⟩
